import Mathlib

/-!
Shallow embedding of the NewsLetter repository's embedding-and-retrieval core
(src/vector_store.py, src/database_manager.py, src/digest_generator.py,
src/standalone.py) together with theorems settling the frozen claims.

Modelling conventions:
- Python floats are modelled by exact rationals.
- Cosine similarity dot/(norm1*norm2) involves irrational square roots, so a
  similarity value c is represented by its image under the strictly monotone
  map x ↦ x * |x|, namely dot * |dot| / (sumSq1 * sumSq2).  This encoding is
  exact, preserves order, maxima and the value 0, so every claim about
  ordering, deduplication, maxima and the zero guard transfers verbatim.
- Operations that can raise in Python (np.dot on vectors of unequal length)
  return Option, with none modelling the raised exception.
- sqlite tables are modelled as lists of rows; SELECT queries as pure reads.
-/

namespace NewsLetter

/-! ## Basic string helpers (Python semantics) -/

/-- Python substring test needle in hay, on character lists. -/
def strContains (hay needle : List Char) : Bool :=
  (List.range (hay.length + 1)).any (fun i => needle.isPrefixOf (hay.drop i))

/-- Python str.lower(), character by character. -/
def pyLower (s : String) : String := ⟨s.data.map Char.toLower⟩

/-- Python str.split(): split on whitespace, dropping empty fields. -/
def pyWords (s : String) : List (List Char) :=
  (s.data.splitOnP Char.isWhitespace).filter (fun w => w ≠ [])

/-- Python slicing s[:n] (by code point, as in Python). -/
def pyTake (s : String) (n : Nat) : String := ⟨s.data.take n⟩

/-! ## Data model: sqlite tables (database_manager.py, _create_tables) -/

/-- One row of the papers table (the columns the core reads). -/
structure Paper where
  arxiv_id : String
  title : String
  abstract : String
  processed : Bool
  embedding_created : Bool
  deriving Repr, DecidableEq

/-- One row of the embeddings table.  The embedding BLOB column is nullable,
hence Option; a present value is the pickled list of floats. -/
structure EmbRow where
  arxiv_id : String
  chunk_index : Nat
  chunk_text : String
  embedding : Option (List ℚ)
  chunk_type : String
  deriving Repr, DecidableEq

/-- Database state: the two tables the retrieval core touches. -/
structure DB where
  papers : List Paper
  embeddings : List EmbRow
  deriving Repr, DecidableEq

/-- DatabaseManager.get_paper: SELECT * FROM papers WHERE arxiv_id = ?. -/
def get_paper (db : DB) (id : String) : Option Paper :=
  db.papers.find? (fun p => p.arxiv_id == id)

/-- Point lookup in the embeddings table by (document id, chunk index). -/
def lookupRow (rows : List EmbRow) (d : String) (i : Nat) : Option EmbRow :=
  rows.find? (fun r => r.arxiv_id == d && r.chunk_index == i)

/-! ## EmbeddingProvider (vector_store.py, create_embedding / _simple_embedding) -/

/-- The fixed keyword list of VectorStore._simple_embedding. -/
def simpleKeywords : List String :=
  ["rag", "llm", "embedding", "retrieval", "transformer", "attention"]

/-- VectorStore._simple_embedding: 26 letter-frequency features, a word-count
and a character-count feature, 6 keyword-presence features, padded with zeros
to length 384 and sliced to 384. -/
def simple_embedding (text : String) : List ℚ :=
  let tl := pyLower text
  let charFeats : List ℚ :=
    "abcdefghijklmnopqrstuvwxyz".data.map
      (fun c => (tl.data.count c : ℚ) / (max tl.data.length 1 : ℕ))
  let wordFeat : ℚ := ((pyWords tl).length : ℚ) / 100
  let lenFeat : ℚ := (text.length : ℚ) / 1000
  let kwFeats : List ℚ :=
    simpleKeywords.map (fun k => if strContains tl.data k.data then (1 : ℚ) else 0)
  let features := charFeats ++ [wordFeat, lenFeat] ++ kwFeats
  (features ++ List.replicate (384 - features.length) 0).take 384

/-- The two embedding strategies of VectorStore.create_embedding, selected once
at startup: the external sentence-transformer model (an environment function)
or the in-repo fallback. -/
inductive Provider where
  | model (encode : String → List ℚ)
  | simple

/-- VectorStore.create_embedding. -/
def create_embedding : Provider → String → List ℚ
  | Provider.model enc, t => enc t
  | Provider.simple, t => simple_embedding t

/-! ## Cosine similarity (vector_store.py, _cosine_similarity) -/

/-- Sum of pairwise products; the value np.dot returns on equal-length vectors. -/
def dotQ (v w : List ℚ) : ℚ :=
  (List.zipWith (fun a b => a * b) v w).sum

/-- np.dot raises ValueError on 1-D arrays of unequal length; none models that. -/
def dotQ? (v w : List ℚ) : Option ℚ :=
  if v.length = w.length then some (dotQ v w) else none

/-- Squared euclidean norm; np.linalg.norm v = 0 iff sumSq v = 0. -/
def sumSq (v : List ℚ) : ℚ := dotQ v v

/-- VectorStore._cosine_similarity in the x ↦ x * |x| encoding (see header):
compute the dot product (raising on length mismatch), return 0 when either
norm is zero, otherwise the encoded quotient d * |d| / (sumSq1 * sumSq2),
whose denominator is the square of the source's norm1 * norm2. -/
def cosine_similarity? (v1 v2 : List ℚ) : Option ℚ :=
  match dotQ? v1 v2 with
  | none => none
  | some d =>
    if sumSq v1 = 0 ∨ sumSq v2 = 0 then some 0
    else some (d * |d| / (sumSq v1 * sumSq v2))

/-! ## Stable descending sort (Python list.sort(key=..., reverse=True)) -/

/-- Insert x into a list sorted by non-increasing key, placing x before the
first strictly smaller key, so that among equal keys earlier input elements
stay first: the characteristic property of Python's stable sort. -/
def insertKD {α β : Type} [LinearOrder β] (key : α → β) (x : α) : List α → List α
  | [] => [x]
  | y :: ys => if key y ≤ key x then x :: y :: ys else y :: insertKD key x ys

/-- Stable sort by non-increasing key: the unique stable descending sort, hence
the function computed by list.sort(key=..., reverse=True). -/
def sortKD {α β : Type} [LinearOrder β] (key : α → β) : List α → List α
  | [] => []
  | x :: xs => insertKD key x (sortKD key xs)

/-! ## SimilaritySearchEngine (vector_store.py, semantic_search) -/

/-- One entry of the intermediate results list built while scanning the
embeddings table. -/
structure ChunkHit where
  paper_id : String
  chunk_index : Nat
  chunk_text : String
  similarity : ℚ
  deriving Repr, DecidableEq

/-- One entry of the returned unique_results list. -/
structure SearchResult where
  arxiv_id : String
  title : String
  abstract : String
  similarity : ℚ
  relevant_chunk : String
  deriving Repr, DecidableEq

/-- The source's s[:200] + '...' truncation. -/
def trunc200 (s : String) : String := pyTake s 200 ++ "..."

/-- The scan loop of semantic_search: for each embeddings row whose BLOB is
present, unpickle it and compute the similarity to the query embedding,
collecting hits in table order; none models the np.dot ValueError escaping
the loop when a stored vector has the wrong dimensionality. -/
def collectSims (q : List ℚ) : List EmbRow → Option (List ChunkHit)
  | [] => some []
  | r :: rs =>
    match r.embedding with
    | none => collectSims q rs
    | some v =>
      match cosine_similarity? q v, collectSims q rs with
      | some s, some hs => some (⟨r.arxiv_id, r.chunk_index, r.chunk_text, s⟩ :: hs)
      | _, _ => none

/-- Hydration of a hit into a returned result (title, truncated abstract,
similarity, truncated matching chunk). -/
def mkResult (p : Paper) (h : ChunkHit) : SearchResult :=
  ⟨p.arxiv_id, p.title, trunc200 p.abstract, h.similarity, trunc200 h.chunk_text⟩

/-- The dedupe-and-collect loop of semantic_search: walk the sorted hits; skip
a hit whose paper was already emitted or whose paper row is absent; otherwise
append the hydrated hit, and stop as soon as the accumulator has reached
n_results — the check is made after appending, exactly as in the source. -/
def dedupeWalk (db : DB) (n : Nat) :
    List ChunkHit → List String → List SearchResult → List SearchResult
  | [], _, acc => acc.reverse
  | h :: hs, seen, acc =>
    if h.paper_id ∈ seen then dedupeWalk db n hs seen acc
    else
      match get_paper db h.paper_id with
      | none => dedupeWalk db n hs seen acc
      | some p =>
        if n ≤ (mkResult p h :: acc).length then (mkResult p h :: acc).reverse
        else dedupeWalk db n hs (h.paper_id :: seen) (mkResult p h :: acc)

/-- VectorStore.semantic_search: embed the query, score every stored chunk,
stable-sort by descending similarity, then deduplicate by parent document,
keeping at most n_results entries.  none models the ValueError raised by
np.dot on a stored vector of mismatched dimensionality. -/
def semantic_search (prov : Provider) (db : DB) (query : String) (n_results : Nat) :
    Option (List SearchResult) :=
  (collectSims (create_embedding prov query) db.embeddings).map
    (fun hits => dedupeWalk db n_results (sortKD (fun h => h.similarity) hits) [] [])

/-- Specification-side view used by claim C1: the multiset of similarities the
scan computes for the chunks of one document, read directly off the embeddings
table. -/
def docSims (q : List ℚ) (rows : List EmbRow) (d : String) : List ℚ :=
  rows.filterMap
    (fun r =>
      if r.arxiv_id == d then r.embedding.bind (fun v => cosine_similarity? q v)
      else none)

/-! ## Database-operation trace of the search path (claim C10) -/

/-- The SQL statements the retrieval core can issue, tagged read or write. -/
inductive DbOp where
  | selectEmbeddings : DbOp
  | selectPaper : String → DbOp
  | insertPaper : Paper → DbOp
  | insertEmbeddingRow : EmbRow → DbOp
  deriving Repr

/-- Classification of the statements: the two SELECTs read, the INSERTs write. -/
def DbOp.isWrite : DbOp → Bool
  | DbOp.selectEmbeddings => false
  | DbOp.selectPaper _ => false
  | DbOp.insertPaper _ => true
  | DbOp.insertEmbeddingRow _ => true

/-- The database statements issued by the dedupe loop: one SELECT on papers
per not-yet-seen hit, mirroring the control flow of dedupeWalk. -/
def dedupeWalkOps (db : DB) (n : Nat) :
    List ChunkHit → List String → List SearchResult → List DbOp
  | [], _, _ => []
  | h :: hs, seen, acc =>
    if h.paper_id ∈ seen then dedupeWalkOps db n hs seen acc
    else
      DbOp.selectPaper h.paper_id ::
        match get_paper db h.paper_id with
        | none => dedupeWalkOps db n hs seen acc
        | some p =>
          if n ≤ (mkResult p h :: acc).length then []
          else dedupeWalkOps db n hs (h.paper_id :: seen) (mkResult p h :: acc)

/-- The database statements issued by one call to semantic_search: the bulk
SELECT on embeddings followed by the paper lookups of the dedupe loop. -/
def semantic_search_ops (prov : Provider) (db : DB) (query : String) (n_results : Nat) :
    List DbOp :=
  DbOp.selectEmbeddings ::
    match collectSims (create_embedding prov query) db.embeddings with
    | none => []
    | some hits => dedupeWalkOps db n_results (sortKD (fun h => h.similarity) hits) [] []

/-! ## PreferenceRanker (digest_generator.py / standalone.py, _rank_papers) -/

/-- The global keyword vocabulary ALL_KEYWORDS of digest_generator.py. -/
def ALL_KEYWORDS : List String :=
  ["RAG", "LLM", "Knowledge Graph", "Vector DB", "Fine-Tuning", "Transformer"]

/-- A value of the summary dict: the ranker only distinguishes strings from
everything else (isinstance(value, str)). -/
inductive SumVal where
  | str (s : String)
  | other
  deriving Repr, DecidableEq

/-- A paper dict as consumed by _rank_papers, after its JSON fields have been
parsed: title, abstract, and the summary mapping in insertion order. -/
structure DigestPaper where
  title : String
  abstract : String
  summary : List (String × SumVal)
  deriving Repr, DecidableEq

/-- An output entry of _rank_papers: the copied paper dict with the added
rank_score key. -/
structure ScoredPaper where
  title : String
  abstract : String
  summary : List (String × SumVal)
  rank_score : Nat
  deriving Repr, DecidableEq

/-- The haystack _rank_papers builds: title and abstract joined by a space,
then every string-valued summary value appended with a leading space. -/
def text_to_score (p : DigestPaper) : String :=
  p.summary.foldl
    (fun acc kv =>
      match kv.2 with
      | SumVal.str s => acc ++ " " ++ s
      | SumVal.other => acc)
    (p.title ++ " " ++ p.abstract)

/-- The scoring loop: iterate over the set of lower-cased preferences (a set,
so duplicates and case variants collapse) and count those occurring as
substrings of the lower-cased haystack. -/
def rank_score_of (p : DigestPaper) (preferences : List String) : Nat :=
  ((preferences.map pyLower).dedup).countP
    (fun pref => strContains (pyLower (text_to_score p)).data pref.data)

/-- The loop body of _rank_papers: copy the paper dict and attach rank_score. -/
def score_paper (p : DigestPaper) (preferences : List String) : ScoredPaper :=
  ⟨p.title, p.abstract, p.summary, rank_score_of p preferences⟩

/-- EmailDigestBot._rank_papers (identical in digest_generator.py and
standalone.py): score every paper in input order, then stable-sort by
descending rank_score. -/
def rank_papers (papers : List DigestPaper) (preferences : List String) :
    List ScoredPaper :=
  if papers = [] then []
  else sortKD (fun e => e.rank_score) (papers.map (fun p => score_paper p preferences))

/-! ## VectorRepository write path (store_embedding, process_paper) -/

/-- Modelled from the spec: DatabaseManager.store_embedding is called by
VectorStore.process_paper but its definition is not under src/.  Per spec
§4.2, store(document_id, chunk_index, chunk_text, vector, chunk_type) returns
success or failure, overwrites any existing row with the same
(document_id, chunk_index), and on failure leaves the store unchanged (each
call atomic with respect to its own row).  The ok flag is the environment's
verdict on whether the persistence layer accepts this write. -/
def store_embedding (ok : Bool) (paper_id : String) (chunk_index : Nat)
    (chunk_text : String) (emb : List ℚ) (chunk_type : String)
    (rows : List EmbRow) : Bool × List EmbRow :=
  if ok then
    (true,
      ⟨paper_id, chunk_index, chunk_text, some emb, chunk_type⟩ ::
        rows.filter (fun r => !(r.arxiv_id == paper_id && r.chunk_index == chunk_index)))
  else (false, rows)

/-- A chunk record handed over by the ingestion collaborator
(pdf_parser.prepare_chunks_for_embedding, not under src/): index, text, type. -/
structure ChunkRec where
  index : Nat
  text : String
  ctype : String
  deriving Repr, DecidableEq

/-- One iteration of process_paper's chunk loop: embed the chunk and store
it, discarding the success flag as the source does. -/
def storeChunk (prov : Provider) (fails : String → Nat → Bool) (arxiv_id : String)
    (acc : List EmbRow) (c : ChunkRec) : List EmbRow :=
  (store_embedding (!fails arxiv_id c.index) arxiv_id c.index c.text
      (create_embedding prov c.text) c.ctype acc).2

/-- VectorStore.process_paper: fetch the chunks (the parser is an environment
function), return failure when there are none, otherwise embed and store each
chunk in order — ignoring each store's success flag, exactly as the source
ignores store_embedding's return value — and report success. -/
def process_paper (prov : Provider) (parserChunks : String → List ChunkRec)
    (fails : String → Nat → Bool) (arxiv_id : String) (rows : List EmbRow) :
    Bool × List EmbRow :=
  let chunks := parserChunks arxiv_id
  if chunks = [] then (false, rows)
  else (true, chunks.foldl (storeChunk prov fails arxiv_id) rows)

/-- The batch summary dict of process_all_papers. -/
structure BatchSummary where
  total : Nat
  success : Nat
  failed : List String
  deriving Repr, DecidableEq

/-- One iteration of process_all_papers' loop: run process_paper and record
the per-paper outcome in the summary. -/
def batchStep (prov : Provider) (parserChunks : String → List ChunkRec)
    (fails : String → Nat → Bool) (st : BatchSummary × List EmbRow) (id : String) :
    BatchSummary × List EmbRow :=
  let r := process_paper prov parserChunks fails id st.2
  if r.1 then (⟨st.1.total, st.1.success + 1, st.1.failed⟩, r.2)
  else (⟨st.1.total, st.1.success, st.1.failed ++ [id]⟩, r.2)

/-- VectorStore.process_all_papers: select the papers still needing embeddings
(processed and not embedding_created, up to limit), run process_paper on each,
and count per-paper outcomes in the summary. -/
def process_all_papers (prov : Provider) (parserChunks : String → List ChunkRec)
    (fails : String → Nat → Bool) (db : DB) (limit : Nat) :
    BatchSummary × List EmbRow :=
  let ids :=
    ((db.papers.filter (fun p => p.processed && !p.embedding_created)).take limit).map
      (fun p => p.arxiv_id)
  ids.foldl (batchStep prov parserChunks fails) (⟨ids.length, 0, []⟩, db.embeddings)

/-! ## Example fixtures for witnesses and counterexamples -/

/-- An environment embedding model returning a 1-dimensional vector; used to
exercise control flow with small exact numbers. -/
def encOne : String → List ℚ := fun _ => [1]

/-- A papers-table row used by the concrete examples. -/
def exPaperA : Paper := ⟨"A", "Title", "Abs", true, false⟩

/-- Repository with one paper and one stored chunk. -/
def exDB : DB := ⟨[exPaperA], [⟨"A", 0, "ragchunk", some [1], "body"⟩]⟩

/-- Repository holding one well-formed and one malformed (wrong-dimensional)
stored vector. -/
def exDB8 : DB := ⟨[exPaperA], [⟨"A", 0, "good", some [1], "body"⟩,
  ⟨"B", 1, "bad", some [1, 2], "body"⟩]⟩

/-- A document whose title contains seven distinct one-letter keywords. -/
def exDoc4 : DigestPaper := ⟨"a b c d e f g", "", []⟩

/-- Seven distinct preference keywords, all matching exDoc4. -/
def exPrefs7 : List String := ["a", "b", "c", "d", "e", "f", "g"]

/-- Ingestion environment: paper A has two chunks. -/
def exChunks : String → List ChunkRec :=
  fun id => if id == "A" then [⟨0, "t0", "body"⟩, ⟨1, "t1", "body"⟩] else []

/-- Storage-failure environment: the write of chunk 0 of paper A is rejected. -/
def exFails : String → Nat → Bool := fun id i => id == "A" && i == 0

/-- Repository in which paper A still needs embeddings. -/
def exDB7 : DB := ⟨[exPaperA], []⟩

/-! # Theorems -/

/-! ## Generic lemmas about the stable descending sort -/

theorem insertKD_perm {α β : Type} [LinearOrder β] (key : α → β) (x : α) :
    ∀ l : List α, List.Perm (insertKD key x l) (x :: l) := by
  intro l
  induction l with
  | nil => exact List.Perm.refl _
  | cons y ys ih =>
    by_cases h : key y ≤ key x
    · simp [insertKD, h]
    · simp only [insertKD, if_neg h]
      exact (ih.cons y).trans (List.Perm.swap x y ys)

theorem sortKD_perm {α β : Type} [LinearOrder β] (key : α → β) :
    ∀ l : List α, List.Perm (sortKD key l) l := by
  intro l
  induction l with
  | nil => exact List.Perm.refl _
  | cons x xs ih => exact (insertKD_perm key x (sortKD key xs)).trans (ih.cons x)

theorem insertKD_sorted {α β : Type} [LinearOrder β] (key : α → β) (x : α)
    (l : List α) (hl : l.Pairwise (fun a b => key b ≤ key a)) :
    (insertKD key x l).Pairwise (fun a b => key b ≤ key a) := by
  induction l with
  | nil => simp [insertKD]
  | cons y ys ih =>
    rcases hl with _ | ⟨hy, hys⟩
    by_cases h : key y ≤ key x
    · simp only [insertKD, if_pos h]
      refine List.Pairwise.cons ?_ (List.Pairwise.cons hy hys)
      intro z hz
      rcases List.mem_cons.mp hz with rfl | hz
      · exact h
      · exact le_trans (hy z hz) h
    · simp only [insertKD, if_neg h]
      refine List.Pairwise.cons ?_ (ih hys)
      intro z hz
      have hz' := (insertKD_perm key x ys).mem_iff.mp hz
      rcases List.mem_cons.mp hz' with rfl | hz2
      · exact le_of_lt (lt_of_not_le h)
      · exact hy z hz2

theorem sortKD_sorted {α β : Type} [LinearOrder β] (key : α → β) :
    ∀ l : List α, (sortKD key l).Pairwise (fun a b => key b ≤ key a) := by
  intro l
  induction l with
  | nil => simp [sortKD]
  | cons x xs ih => exact insertKD_sorted key x (sortKD key xs) ih

theorem insertKD_split {α β : Type} [LinearOrder β] (key : α → β) (x : α) :
    ∀ l : List α, ∃ l₁ l₂, insertKD key x l = l₁ ++ x :: l₂ ∧ l = l₁ ++ l₂ ∧
      ∀ y ∈ l₁, key x < key y := by
  intro l
  induction l with
  | nil => exact ⟨[], [], rfl, rfl, by simp⟩
  | cons y ys ih =>
    by_cases h : key y ≤ key x
    · exact ⟨[], y :: ys, by simp [insertKD, h], rfl, by simp⟩
    · obtain ⟨l₁, l₂, h1, h2, h3⟩ := ih
      refine ⟨y :: l₁, l₂, ?_, ?_, ?_⟩
      · simp [insertKD, if_neg h, h1]
      · simp [h2]
      · intro z hz
        rcases List.mem_cons.mp hz with rfl | hz
        · exact lt_of_not_le h
        · exact h3 z hz

theorem sortKD_stable {α β : Type} [LinearOrder β] (key : α → β) (s : β) :
    ∀ l : List α,
      (sortKD key l).filter (fun a => decide (key a = s)) =
        l.filter (fun a => decide (key a = s)) := by
  intro l
  induction l with
  | nil => rfl
  | cons x xs ih =>
    obtain ⟨l₁, l₂, h1, h2, h3⟩ := insertKD_split key x (sortKD key xs)
    have hnil : l₁.filter (fun a => decide (key a = s)) = [] ∨ key x ≠ s := by
      by_cases hx : key x = s
      · left
        rw [List.filter_eq_nil_iff]
        intro a ha
        simp only [decide_eq_true_eq]
        exact fun he => absurd (hx ▸ he ▸ h3 a ha) (lt_irrefl _)
      · right; exact hx
    show (insertKD key x (sortKD key xs)).filter _ = _
    rw [h1, List.filter_append]
    by_cases hx : key x = s
    · rcases hnil with hn | hn
      · rw [hn, List.filter_cons_of_pos (by simp [hx]), List.nil_append,
          List.filter_cons_of_pos (by simp [hx])]
        have := ih
        rw [h2, List.filter_append, hn, List.nil_append] at this
        rw [this]
      · exact absurd hx hn
    · rw [List.filter_cons_of_neg (by simp [hx]), List.filter_cons_of_neg (by simp [hx]),
        ← List.filter_append, ← h2, ih]

theorem sortKD_const {α β : Type} [LinearOrder β] (key : α → β) (c : β) :
    ∀ l : List α, (∀ a ∈ l, key a = c) → sortKD key l = l := by
  intro l
  induction l with
  | nil => intro _; rfl
  | cons x xs ih =>
    intro hall
    have hxs : sortKD key xs = xs := ih (fun a ha => hall a (List.mem_cons_of_mem x ha))
    show insertKD key x (sortKD key xs) = x :: xs
    rw [hxs]
    cases xs with
    | nil => rfl
    | cons y ys =>
      have hy : key y ≤ key x := by
        rw [hall y (by simp), hall x (by simp)]
      simp [insertKD, hy]

/-! ## Dimension of the fallback embedding (claim C5) -/

theorem pad_take_length (l : List ℚ) :
    ((l ++ List.replicate (384 - l.length) (0 : ℚ)).take 384).length = 384 := by
  simp only [List.length_take, List.length_append, List.length_replicate]
  omega

theorem simple_embedding_length (t : String) : (simple_embedding t).length = 384 := by
  simp only [simple_embedding]
  exact pad_take_length _

/-- C5: for every input text, including the empty string, the embedding has
length exactly 384 and is produced without failing, for both the model-backed
variant (given that the fixed external model emits 384-dimensional vectors,
which the source does not re-validate) and the feature-hash fallback. -/
theorem create_embedding_dim (p : Provider)
    (hm : ∀ enc, p = Provider.model enc → ∀ t, (enc t).length = 384) :
    ∀ t : String, (create_embedding p t).length = 384 := by
  intro t
  cases p with
  | model enc => exact hm enc rfl t
  | simple => exact simple_embedding_length t

/-- Witness for C5 at the fallback provider and the empty string. -/
theorem create_embedding_dim_witness :
    (∀ enc, Provider.simple = Provider.model enc → ∀ t, (enc t).length = 384) ∧
    (create_embedding Provider.simple "").length = 384 :=
  ⟨fun _ h => Provider.noConfusion h,
    create_embedding_dim Provider.simple (fun _ h => Provider.noConfusion h) ""⟩

/-! ## The cosine zero guard (claim C6) -/

theorem sumSq_nonneg : ∀ v : List ℚ, 0 ≤ sumSq v := by
  intro v
  induction v with
  | nil => exact le_refl 0
  | cons a v ih =>
    show 0 ≤ (List.zipWith (fun a b => a * b) (a :: v) (a :: v)).sum
    simp only [List.zipWith_cons_cons, List.sum_cons]
    exact add_nonneg (mul_self_nonneg a) ih

/-- C6: on vectors of equal dimension, if either vector has zero norm then
the similarity is exactly 0, and otherwise the division is evaluated with a
provably nonzero denominator, so division by zero is unreachable.  (Zero norm
is equivalent to zero squared norm, and the encoded denominator
sumSq v1 * sumSq v2 is the square of the source's norm1 * norm2, so one is
zero exactly when the other is.) -/
theorem cosine_zero_guard (v1 v2 : List ℚ) (h : v1.length = v2.length) :
    ((sumSq v1 = 0 ∨ sumSq v2 = 0) → cosine_similarity? v1 v2 = some 0) ∧
    (¬(sumSq v1 = 0 ∨ sumSq v2 = 0) →
      sumSq v1 * sumSq v2 ≠ 0 ∧
      cosine_similarity? v1 v2 =
        some (dotQ v1 v2 * |dotQ v1 v2| / (sumSq v1 * sumSq v2))) := by
  constructor
  · intro hz
    simp [cosine_similarity?, dotQ?, h, hz]
  · intro hz
    have h1 : 0 < sumSq v1 :=
      lt_of_le_of_ne (sumSq_nonneg v1) (fun e => hz (Or.inl e.symm))
    have h2 : 0 < sumSq v2 :=
      lt_of_le_of_ne (sumSq_nonneg v2) (fun e => hz (Or.inr e.symm))
    refine ⟨ne_of_gt (mul_pos h1 h2), ?_⟩
    simp [cosine_similarity?, dotQ?, h, hz]

/-- Witness for C6 at the zero vector [0] against [3]. -/
theorem cosine_zero_guard_witness :
    [(0 : ℚ)].length = [(3 : ℚ)].length ∧
    (((sumSq [(0 : ℚ)] = 0 ∨ sumSq [(3 : ℚ)] = 0) →
        cosine_similarity? [(0 : ℚ)] [(3 : ℚ)] = some 0) ∧
      (¬(sumSq [(0 : ℚ)] = 0 ∨ sumSq [(3 : ℚ)] = 0) →
        sumSq [(0 : ℚ)] * sumSq [(3 : ℚ)] ≠ 0 ∧
        cosine_similarity? [(0 : ℚ)] [(3 : ℚ)] =
          some (dotQ [(0 : ℚ)] [(3 : ℚ)] * |dotQ [(0 : ℚ)] [(3 : ℚ)]| /
            (sumSq [(0 : ℚ)] * sumSq [(3 : ℚ)])))) :=
  ⟨rfl, cosine_zero_guard [(0 : ℚ)] [(3 : ℚ)] rfl⟩

/-! ## The search walk (claim C1) -/

theorem get_paper_id (db : DB) (id : String) (p : Paper)
    (h : get_paper db id = some p) : p.arxiv_id = id := by
  unfold get_paper at h
  have := List.find?_some h
  simpa using this

theorem collectSims_docSims (q : List ℚ) :
    ∀ (rows : List EmbRow) (hits : List ChunkHit),
      collectSims q rows = some hits →
      ∀ d, docSims q rows d =
        (hits.filter (fun h => h.paper_id == d)).map (fun h => h.similarity) := by
  intro rows
  induction rows with
  | nil =>
    intro hits h d
    simp only [collectSims, Option.some_inj] at h
    subst h
    simp [docSims]
  | cons r rs ih =>
    intro hits h d
    cases hr : r.embedding with
    | none =>
      simp only [collectSims, hr] at h
      have := ih hits h d
      simp only [docSims, List.filterMap_cons, hr] at this ⊢
      cases hd : (r.arxiv_id == d) <;> simpa [hd] using this
    | some v =>
      cases hc : cosine_similarity? q v with
      | none => simp [collectSims, hr, hc] at h
      | some s =>
        cases hrec : collectSims q rs with
        | none => simp [collectSims, hr, hc, hrec] at h
        | some hs =>
          simp only [collectSims, hr, hc, hrec, Option.some_inj] at h
          subst h
          have := ih hs hrec d
          simp only [docSims, List.filterMap_cons, hr] at this ⊢
          cases hd : (r.arxiv_id == d) with
          | false => simpa [hd] using this
          | true =>
            have hb : ((some v).bind fun v => cosine_similarity? q v) = some s := hc
            simp only [hd, if_true, hb, List.filter_cons, List.map_cons]
            refine congrArg (List.cons s) ?_
            simpa using this

/-- The induction backbone of claim C1: invariants of the dedupe loop.  The
hypotheses say the remaining hits are sorted, the accumulator holds one entry
per already-seen paper with similarities dominating every remaining hit, and
the accumulator is not yet full.  The conclusions give the length bound, the
distinctness of documents, the descending order, the origin of each result in
some hit, the domination of every same-document hit, and the freshness of new
results with respect to the seen set. -/
theorem dedupeWalk_master (db : DB) (n : Nat) :
    ∀ (hits : List ChunkHit) (seen : List String) (acc : List SearchResult),
      seen = acc.map (fun r => r.arxiv_id) →
      hits.Pairwise (fun a b => b.similarity ≤ a.similarity) →
      (∀ a ∈ acc, ∀ h ∈ hits, h.similarity ≤ a.similarity) →
      acc.Pairwise (fun a b => a.similarity ≤ b.similarity) →
      (acc.map (fun r => r.arxiv_id)).Nodup →
      acc.length < n →
      (dedupeWalk db n hits seen acc).length ≤ n ∧
      ((dedupeWalk db n hits seen acc).map (fun r => r.arxiv_id)).Nodup ∧
      (dedupeWalk db n hits seen acc).Pairwise
        (fun a b => b.similarity ≤ a.similarity) ∧
      (∀ r ∈ dedupeWalk db n hits seen acc, r ∈ acc ∨
        ∃ h, h ∈ hits ∧ ∃ p, get_paper db h.paper_id = some p ∧ r = mkResult p h) ∧
      (∀ r ∈ dedupeWalk db n hits seen acc, ∀ h ∈ hits,
        h.paper_id = r.arxiv_id → h.similarity ≤ r.similarity) ∧
      (∀ r ∈ dedupeWalk db n hits seen acc, r ∈ acc ∨ r.arxiv_id ∉ seen) := by
  intro hits
  induction hits with
  | nil =>
    intro seen acc h1 _ _ h4 h5 h6
    simp only [dedupeWalk]
    refine ⟨by simpa using le_of_lt h6, ?_, ?_, ?_, ?_, ?_⟩
    · rw [List.map_reverse]
      exact List.nodup_reverse.mpr h5
    · exact List.pairwise_reverse.mpr h4
    · intro r hr; exact Or.inl (List.mem_reverse.mp hr)
    · intro r _ h hh; exact absurd hh (List.not_mem_nil h)
    · intro r hr; exact Or.inl (List.mem_reverse.mp hr)
  | cons h hs ih =>
    intro seen acc h1 h2 h3 h4 h5 h6
    rcases h2 with _ | ⟨hdom, h2'⟩
    by_cases hseen : h.paper_id ∈ seen
    · simp only [dedupeWalk, if_pos hseen]
      have ihresult := ih seen acc h1 h2'
        (fun a ha h' hh' => h3 a ha h' (List.mem_cons_of_mem h hh')) h4 h5 h6
      obtain ⟨c1, c2, c3, c4, c5, c6⟩ := ihresult
      refine ⟨c1, c2, c3, ?_, ?_, c6⟩
      · intro r hr
        rcases c4 r hr with hacc | ⟨h', hh', p, hp, he⟩
        · exact Or.inl hacc
        · exact Or.inr ⟨h', List.mem_cons_of_mem h hh', p, hp, he⟩
      · intro r hr h' hh' hid
        rcases List.mem_cons.mp hh' with rfl | hh2
        · rcases c6 r hr with hacc | hfresh
          · exact h3 r hacc h' (List.mem_cons_self h' hs)
          · exact absurd (hid ▸ hseen) hfresh
        · exact c5 r hr h' hh2 hid
    · simp only [dedupeWalk, if_neg hseen]
      cases hp : get_paper db h.paper_id with
      | none =>
        have ihresult := ih seen acc h1 h2'
          (fun a ha h' hh' => h3 a ha h' (List.mem_cons_of_mem h hh')) h4 h5 h6
        obtain ⟨c1, c2, c3, c4, c5, c6⟩ := ihresult
        refine ⟨c1, c2, c3, ?_, ?_, c6⟩
        · intro r hr
          rcases c4 r hr with hacc | ⟨h', hh', p, hp', he⟩
          · exact Or.inl hacc
          · exact Or.inr ⟨h', List.mem_cons_of_mem h hh', p, hp', he⟩
        · intro r hr h' hh' hid
          rcases List.mem_cons.mp hh' with rfl | hh2
          · rcases c6 r hr with hacc | _
            · exact h3 r hacc h' (List.mem_cons_self h' hs)
            · rcases c4 r hr with hacc | ⟨h'', hh'', p, hp'', he⟩
              · exact h3 r hacc h' (List.mem_cons_self h' hs)
              · have : r.arxiv_id = h''.paper_id := by
                  rw [he]
                  exact get_paper_id db h''.paper_id p hp''
                rw [hid, this] at hp
                rw [hp] at hp''
                exact absurd hp'' (by simp)
          · exact c5 r hr h' hh2 hid
      | some p =>
        have hpid : p.arxiv_id = h.paper_id := get_paper_id db h.paper_id p hp
        have hrid : (mkResult p h).arxiv_id = h.paper_id := hpid
        have hrsim : (mkResult p h).similarity = h.similarity := rfl
        by_cases hfull : n ≤ (mkResult p h :: acc).length
        · simp only [dedupeWalk, hp, if_pos hfull]
          have hlen : (mkResult p h :: acc).length = acc.length + 1 := by simp
          have hmapn : ((mkResult p h :: acc).map (fun r => r.arxiv_id)).Nodup := by
            refine List.Nodup.cons ?_ h5
            simp only [List.mem_map]
            rintro ⟨a, ha, hae⟩
            exact hseen (h1 ▸ (hrid ▸ hae ▸ List.mem_map_of_mem (fun r => r.arxiv_id) ha))
          have hpw : (mkResult p h :: acc).Pairwise
              (fun a b => a.similarity ≤ b.similarity) := by
            refine List.Pairwise.cons ?_ h4
            intro a ha
            rw [hrsim]
            exact h3 a ha h (List.mem_cons_self h hs)
          refine ⟨?_, ?_, ?_, ?_, ?_, ?_⟩
          · simp only [List.length_reverse, List.length_cons]
            simp only [List.length_cons] at hfull
            omega
          · rw [List.map_reverse]
            exact List.nodup_reverse.mpr hmapn
          · exact List.pairwise_reverse.mpr hpw
          · intro r hr
            rcases List.mem_cons.mp (List.mem_reverse.mp hr) with rfl | hacc
            · exact Or.inr ⟨h, List.mem_cons_self h hs, p, hp, rfl⟩
            · exact Or.inl hacc
          · intro r hr h' hh' hid
            rcases List.mem_cons.mp (List.mem_reverse.mp hr) with rfl | hacc
            · rcases List.mem_cons.mp hh' with rfl | hh2
              · exact le_of_eq hrsim.symm
              · rw [hrsim]; exact hdom h' hh2
            · exact h3 r hacc h' hh'
          · intro r hr
            rcases List.mem_cons.mp (List.mem_reverse.mp hr) with rfl | hacc
            · exact Or.inr (hrid ▸ hseen)
            · exact Or.inl hacc
        · simp only [dedupeWalk, hp, if_neg hfull]
          have hlen2 : (mkResult p h :: acc).length < n := by
            simp only [List.length_cons] at hfull ⊢
            omega
          have hseen' : h.paper_id :: seen =
              (mkResult p h :: acc).map (fun r => r.arxiv_id) := by
            simp [hrid, h1]
          have hdom' : ∀ a ∈ mkResult p h :: acc, ∀ h' ∈ hs,
              h'.similarity ≤ a.similarity := by
            intro a ha h' hh'
            rcases List.mem_cons.mp ha with rfl | hacc
            · rw [hrsim]; exact hdom h' hh'
            · exact h3 a hacc h' (List.mem_cons_of_mem h hh')
          have hpw' : (mkResult p h :: acc).Pairwise
              (fun a b => a.similarity ≤ b.similarity) := by
            refine List.Pairwise.cons ?_ h4
            intro a ha
            rw [hrsim]
            exact h3 a ha h (List.mem_cons_self h hs)
          have hmapn' : ((mkResult p h :: acc).map (fun r => r.arxiv_id)).Nodup := by
            refine List.Nodup.cons ?_ h5
            simp only [List.mem_map]
            rintro ⟨a, ha, hae⟩
            exact hseen (h1 ▸ (hrid ▸ hae ▸ List.mem_map_of_mem (fun r => r.arxiv_id) ha))
          have ihresult := ih (h.paper_id :: seen) (mkResult p h :: acc)
            hseen' h2' hdom' hpw' hmapn' hlen2
          obtain ⟨c1, c2, c3, c4, c5, c6⟩ := ihresult
          refine ⟨c1, c2, c3, ?_, ?_, ?_⟩
          · intro r hr
            rcases c4 r hr with hacc | ⟨h', hh', p', hp', he⟩
            · rcases List.mem_cons.mp hacc with rfl | hacc2
              · exact Or.inr ⟨h, List.mem_cons_self h hs, p, hp, rfl⟩
              · exact Or.inl hacc2
            · exact Or.inr ⟨h', List.mem_cons_of_mem h hh', p', hp', he⟩
          · intro r hr h' hh' hid
            rcases List.mem_cons.mp hh' with rfl | hh2
            · rcases c6 r hr with hacc | hfresh
              · rcases List.mem_cons.mp hacc with rfl | hacc2
                · exact le_of_eq hrsim.symm
                · exact h3 r hacc2 h' (List.mem_cons_self h' hs)
              · refine absurd ?_ hfresh
                rw [← hid]
                exact List.mem_cons_self _ _
            · exact c5 r hr h' hh2 hid
          · intro r hr
            rcases c6 r hr with hacc | hfresh
            · rcases List.mem_cons.mp hacc with rfl | hacc2
              · exact Or.inr (hrid ▸ hseen)
              · exact Or.inl hacc2
            · exact Or.inr (fun hmem => hfresh (List.mem_cons_of_mem h.paper_id hmem))

/-- C1 (amended): when max_results is at least 1, semantic_search returns at
most max_results entries, no two entries carry the same document id, entries
are ordered by non-increasing similarity, each entry's similarity is the
maximum similarity over all of that document's stored chunks, and the
underlying sort is stable (chunks with equal similarity keep the order in
which the table scan encountered them).  The restriction to max_results ≥ 1
is forced by the counterexample semantic_search_zero_cutoff: the source
checks the cutoff only after appending, so max_results = 0 still yields one
result. -/
theorem semantic_search_ranked (prov : Provider) (db : DB) (query : String)
    (n : Nat) (hits : List ChunkHit) (res : List SearchResult)
    (hn : 1 ≤ n)
    (hc : collectSims (create_embedding prov query) db.embeddings = some hits)
    (hres : semantic_search prov db query n = some res) :
    res.length ≤ n ∧
    (res.map (fun r => r.arxiv_id)).Nodup ∧
    res.Pairwise (fun a b => b.similarity ≤ a.similarity) ∧
    (∀ r ∈ res,
      r.similarity ∈ docSims (create_embedding prov query) db.embeddings r.arxiv_id ∧
      ∀ s ∈ docSims (create_embedding prov query) db.embeddings r.arxiv_id,
        s ≤ r.similarity) ∧
    (∀ s : ℚ,
      (sortKD (fun h => h.similarity) hits).filter (fun h => decide (h.similarity = s)) =
        hits.filter (fun h => decide (h.similarity = s))) := by
  have hwalk : res = dedupeWalk db n (sortKD (fun h => h.similarity) hits) [] [] := by
    unfold semantic_search at hres
    rw [hc] at hres
    simpa using hres.symm
  subst hwalk
  obtain ⟨c1, c2, c3, c4, c5, _⟩ :=
    dedupeWalk_master db n (sortKD (fun h => h.similarity) hits) [] []
      rfl (sortKD_sorted (fun h => h.similarity) hits) (by simp)
      List.Pairwise.nil (by simp) (by simpa using hn)
  refine ⟨c1, c2, c3, ?_, fun s => sortKD_stable (fun h => h.similarity) s hits⟩
  intro r hr
  rcases c4 r hr with habs | ⟨h, hh, p, hp, he⟩
  · exact absurd habs (List.not_mem_nil r)
  have hid : r.arxiv_id = h.paper_id := by
    rw [he]
    exact get_paper_id db h.paper_id p hp
  have hsim : r.similarity = h.similarity := by rw [he]; rfl
  have htrans := collectSims_docSims (create_embedding prov query) db.embeddings hits hc
  constructor
  · rw [htrans r.arxiv_id, hsim]
    refine List.mem_map.mpr ⟨h, List.mem_filter.mpr ⟨?_, ?_⟩, rfl⟩
    · exact (sortKD_perm (fun h => h.similarity) hits).mem_iff.mp hh
    · exact beq_iff_eq.mpr hid.symm
  · intro s hs
    rw [htrans r.arxiv_id] at hs
    obtain ⟨h', hmem, hsim'⟩ := List.mem_map.mp hs
    obtain ⟨hh', hbeq⟩ := List.mem_filter.mp hmem
    have hh'sorted : h' ∈ sortKD (fun h => h.similarity) hits :=
      (sortKD_perm (fun h => h.similarity) hits).mem_iff.mpr hh'
    have := c5 r hr h' hh'sorted (beq_iff_eq.mp hbeq)
    rw [hsim'] at this
    exact this

/-- Counterexample to C1 as stated: with max_results = 0 the search still
returns one result, because the source appends before checking the cutoff,
so the returned sequence is not of length at most max_results. -/
theorem semantic_search_zero_cutoff :
    (semantic_search (Provider.model encOne) exDB "" 0).map List.length = some 1 ∧
    ¬ (1 : Nat) ≤ 0 :=
  ⟨by with_unfolding_all decide, by decide⟩

/-- Witness for the amended C1 at a concrete one-paper repository. -/
theorem semantic_search_ranked_witness :
    (1 : Nat) ≤ 2 ∧
    collectSims (create_embedding (Provider.model encOne) "") exDB.embeddings =
      some [⟨"A", 0, "ragchunk", 1⟩] ∧
    semantic_search (Provider.model encOne) exDB "" 2 =
      some [⟨"A", "Title", "Abs...", 1, "ragchunk..."⟩] ∧
    ([(⟨"A", "Title", "Abs...", 1, "ragchunk..."⟩ : SearchResult)].length ≤ 2 ∧
      ([(⟨"A", "Title", "Abs...", 1, "ragchunk..."⟩ : SearchResult)].map
        (fun r => r.arxiv_id)).Nodup) :=
  ⟨by decide, by with_unfolding_all decide, by with_unfolding_all decide,
    ⟨(semantic_search_ranked (Provider.model encOne) exDB "" 2
          [⟨"A", 0, "ragchunk", 1⟩] [⟨"A", "Title", "Abs...", 1, "ragchunk..."⟩]
          (by decide) (by with_unfolding_all decide)
          (by with_unfolding_all decide)).1,
      (semantic_search_ranked (Provider.model encOne) exDB "" 2
          [⟨"A", 0, "ragchunk", 1⟩] [⟨"A", "Title", "Abs...", 1, "ragchunk..."⟩]
          (by decide) (by with_unfolding_all decide)
          (by with_unfolding_all decide)).2.1⟩⟩

/-! ## The preference ranker (claims C3, C4, C9) -/

theorem dedup_filter_perm (l : List String) (p : String → Bool) :
    List.Perm (l.dedup.filter p) ((l.filter p).dedup) := by
  apply List.perm_of_nodup_nodup_toFinset_eq
  · exact (l.nodup_dedup).filter p
  · exact List.nodup_dedup _
  · ext x
    simp [List.mem_filter, List.mem_dedup, and_comm]

theorem dedup_countP_card (l : List String) (p : String → Bool) :
    l.dedup.countP p = (l.toFinset.filter (p ·)).card := by
  rw [← List.toFinset_filter, List.card_toFinset, List.countP_eq_length_filter]
  exact (dedup_filter_perm l p).length_eq

theorem rank_papers_mem (papers : List DigestPaper) (prefs : List String) :
    ∀ e ∈ rank_papers papers prefs, ∃ p, p ∈ papers ∧ e = score_paper p prefs := by
  intro e he
  unfold rank_papers at he
  by_cases hp : papers = []
  · simp [hp] at he
  · rw [if_neg hp] at he
    have := (sortKD_perm (fun e : ScoredPaper => e.rank_score) _).mem_iff.mp he
    obtain ⟨p, hpmem, hpe⟩ := List.mem_map.mp this
    exact ⟨p, hpmem, hpe.symm⟩

/-- C3: the rank score of every output entry equals the number of distinct
case-insensitive preference keywords (a set cardinality) occurring as
substrings of the lower-cased haystack built from the entry's title, abstract
and string-valued summary-section texts. -/
theorem rank_score_distinct_count (papers : List DigestPaper) (prefs : List String) :
    ∀ e ∈ rank_papers papers prefs,
      e.rank_score =
        ((prefs.map pyLower).toFinset.filter
          (fun k =>
            strContains (pyLower (text_to_score ⟨e.title, e.abstract, e.summary⟩)).data
              k.data = true)).card := by
  intro e he
  obtain ⟨p, _, rfl⟩ := rank_papers_mem papers prefs e he
  show rank_score_of p prefs =
    ((prefs.map pyLower).toFinset.filter
      (fun k => strContains (pyLower (text_to_score p)).data k.data = true)).card
  exact dedup_countP_card (prefs.map pyLower)
    (fun k => strContains (pyLower (text_to_score p)).data k.data)

/-- Witness for C3 at the spec's scenario: title "RAG systems", abstract
"uses Knowledge Graph", preferences ["rag", "llm"], score 1. -/
theorem rank_score_distinct_count_witness :
    (⟨"RAG systems", "uses Knowledge Graph", [], 1⟩ : ScoredPaper) ∈
      rank_papers [⟨"RAG systems", "uses Knowledge Graph", []⟩] ["rag", "llm"] ∧
    (⟨"RAG systems", "uses Knowledge Graph", [], 1⟩ : ScoredPaper).rank_score =
      ((["rag", "llm"].map pyLower).toFinset.filter
        (fun k =>
          strContains
            (pyLower (text_to_score ⟨"RAG systems", "uses Knowledge Graph", []⟩)).data
            k.data = true)).card :=
  ⟨by with_unfolding_all decide,
    rank_score_distinct_count [⟨"RAG systems", "uses Knowledge Graph", []⟩]
      ["rag", "llm"] ⟨"RAG systems", "uses Knowledge Graph", [], 1⟩
      (by with_unfolding_all decide)⟩

/-- Counterexample to C4 as stated: with seven distinct matching preferences
the ranker assigns score 7, which exceeds K = 6, the size of the global
keyword vocabulary ALL_KEYWORDS; the ranker never clamps to the vocabulary. -/
theorem rank_score_exceeds_vocab :
    (rank_papers [exDoc4] exPrefs7).map (fun e => e.rank_score) = [7] ∧
    ALL_KEYWORDS.length = 6 ∧ ¬ (7 : Nat) ≤ 6 :=
  ⟨by with_unfolding_all decide, by decide, by decide⟩

/-- C4 (amended): every score lies in [0, P] where P is the number of distinct
lower-cased preference keywords supplied by the caller; the global vocabulary
size K = 6 bounds the score only when at most 6 distinct preferences are
given, and only the displayed percentage is clamped in the source. -/
theorem rank_score_bounded (papers : List DigestPaper) (prefs : List String) :
    ∀ e ∈ rank_papers papers prefs,
      e.rank_score ≤ ((prefs.map pyLower).dedup).length := by
  intro e he
  obtain ⟨p, _, rfl⟩ := rank_papers_mem papers prefs e he
  exact List.countP_le_length _

/-- Witness for the amended C4 at seven distinct preferences. -/
theorem rank_score_bounded_witness :
    (⟨"a b c d e f g", "", [], 7⟩ : ScoredPaper) ∈ rank_papers [exDoc4] exPrefs7 ∧
    (⟨"a b c d e f g", "", [], 7⟩ : ScoredPaper).rank_score ≤
      ((exPrefs7.map pyLower).dedup).length :=
  ⟨by with_unfolding_all decide,
    rank_score_bounded [exDoc4] exPrefs7 ⟨"a b c d e f g", "", [], 7⟩
      (by with_unfolding_all decide)⟩

/-- C9: with an empty preference list the ranker returns every input document
with score 0 in input order; in general the output has the same length as the
input (no document is ever filtered out) and entries with equal scores appear
in input order (the sort is stable). -/
theorem rank_papers_stable_total (papers : List DigestPaper) (prefs : List String) :
    rank_papers papers [] =
      papers.map (fun d => ⟨d.title, d.abstract, d.summary, 0⟩) ∧
    (rank_papers papers prefs).length = papers.length ∧
    ∀ s : Nat,
      (rank_papers papers prefs).filter (fun e => decide (e.rank_score = s)) =
        (papers.map (fun p => score_paper p prefs)).filter
          (fun e => decide (e.rank_score = s)) := by
  refine ⟨?_, ?_, ?_⟩
  · by_cases hp : papers = []
    · simp [rank_papers, hp]
    · unfold rank_papers
      rw [if_neg hp]
      have hall : ∀ a ∈ papers.map (fun p => score_paper p []),
          (fun e : ScoredPaper => e.rank_score) a = 0 := by
        intro a ha
        obtain ⟨p, _, rfl⟩ := List.mem_map.mp ha
        rfl
      rw [sortKD_const (fun e : ScoredPaper => e.rank_score) 0 _ hall]
      rfl
  · by_cases hp : papers = []
    · simp [rank_papers, hp]
    · unfold rank_papers
      rw [if_neg hp]
      rw [(sortKD_perm (fun e : ScoredPaper => e.rank_score) _).length_eq, List.length_map]
  · intro s
    by_cases hp : papers = []
    · simp [rank_papers, hp]
    · unfold rank_papers
      rw [if_neg hp]
      exact sortKD_stable (fun e : ScoredPaper => e.rank_score) s _

/-! ## The repository write path (claims C2, C7) -/

theorem find?_filter_of_imp {α : Type} (p q : α → Bool)
    (himp : ∀ r, p r = true → q r = true) :
    ∀ l : List α, (l.filter q).find? p = l.find? p := by
  intro l
  induction l with
  | nil => rfl
  | cons r rs ih =>
    cases hq : q r with
    | true =>
      rw [List.filter_cons_of_pos hq]
      cases hp : p r with
      | true => rw [List.find?_cons_of_pos _ hp, List.find?_cons_of_pos _ hp]
      | false =>
        rw [List.find?_cons_of_neg _ (by simp [hp]),
          List.find?_cons_of_neg _ (by simp [hp]), ih]
    | false =>
      rw [List.filter_cons_of_neg (by simp [hq])]
      cases hp : p r with
      | true => exact absurd (himp r hp) (by simp [hq])
      | false => rw [List.find?_cons_of_neg _ (by simp [hp]), ih]

theorem lookupRow_store_self (d : String) (i : Nat) (t : String) (e : List ℚ)
    (ty : String) (rows : List EmbRow) :
    lookupRow (store_embedding true d i t e ty rows).2 d i =
      some ⟨d, i, t, some e, ty⟩ := by
  simp [store_embedding, lookupRow]

theorem lookupRow_store_other (ok : Bool) (d : String) (i : Nat) (t : String)
    (e : List ℚ) (ty : String) (rows : List EmbRow) (d' : String) (i' : Nat)
    (hne : ¬(d' = d ∧ i' = i)) :
    lookupRow (store_embedding ok d i t e ty rows).2 d' i' =
      lookupRow rows d' i' := by
  cases ok with
  | false => rfl
  | true =>
    show lookupRow (⟨d, i, t, some e, ty⟩ ::
      rows.filter (fun r => !(r.arxiv_id == d && r.chunk_index == i))) d' i' = _
    unfold lookupRow
    rw [List.find?_cons_of_neg _ (by
      simp only [Bool.and_eq_true, beq_iff_eq, not_and]
      intro hd hi
      exact hne ⟨hd.symm, hi.symm⟩)]
    exact find?_filter_of_imp _ _ (by
      intro r hr
      simp only [Bool.and_eq_true, beq_iff_eq] at hr
      simp only [Bool.not_eq_true', Bool.and_eq_false_iff]
      by_cases hd : r.arxiv_id = d
      · right
        simp only [beq_eq_false_iff_ne, ne_eq]
        intro hi
        exact hne ⟨hr.1.symm.trans hd, hr.2.symm.trans hi⟩
      · left
        simp [hd]) rows

/-- C2 (spec-modelled): storing twice under the same (document id, chunk
index) leaves the second write as the one retrievable; a failed store returns
failure and leaves the repository unchanged; and a store touches no row other
than its own key — each call is atomic with respect to its own row. -/
theorem store_embedding_overwrite (rows : List EmbRow) (d : String) (i : Nat)
    (t1 t2 : String) (e1 e2 : List ℚ) (ty1 ty2 : String) :
    ((lookupRow (store_embedding true d i t2 e2 ty2
        (store_embedding true d i t1 e1 ty1 rows).2).2 d i).map
      (fun r => r.chunk_text) = some t2) ∧
    store_embedding false d i t1 e1 ty1 rows = (false, rows) ∧
    (∀ (ok : Bool) (d' : String) (i' : Nat), ¬(d' = d ∧ i' = i) →
      lookupRow (store_embedding ok d i t1 e1 ty1 rows).2 d' i' =
        lookupRow rows d' i') := by
  refine ⟨?_, rfl, ?_⟩
  · rw [lookupRow_store_self]
    rfl
  · intro ok d' i' hne
    exact lookupRow_store_other ok d i t1 e1 ty1 rows d' i' hne

/-- Witness for C2 at a concrete double store on (doc "X", index 0). -/
theorem store_embedding_overwrite_witness :
    ((lookupRow (store_embedding true "X" 0 "two" [1] "body"
        (store_embedding true "X" 0 "one" [1] "body" []).2).2 "X" 0).map
      (fun r => r.chunk_text) = some "two") ∧
    ¬("Y" = "X" ∧ (1 : Nat) = 0) ∧
    lookupRow (store_embedding true "X" 0 "one" [1] "body" []).2 "Y" 1 =
      lookupRow [] "Y" 1 :=
  ⟨(store_embedding_overwrite [] "X" 0 "one" "two" [1] [1] "body" "body").1,
    by decide,
    (store_embedding_overwrite [] "X" 0 "one" "two" [1] [1] "body" "body").2.2
      true "Y" 1 (by decide)⟩

theorem fold_store_preserves (prov : Provider) (fails : String → Nat → Bool)
    (id : String) :
    ∀ (l : List ChunkRec) (rows : List EmbRow) (j : Nat),
      (∀ c ∈ l, c.index ≠ j) →
      lookupRow (l.foldl (storeChunk prov fails id) rows) id j =
        lookupRow rows id j := by
  intro l
  induction l with
  | nil => intro rows j _; rfl
  | cons c cs ih =>
    intro rows j hne
    rw [List.foldl_cons, ih _ j (fun c' hc' => hne c' (List.mem_cons_of_mem c hc'))]
    exact lookupRow_store_other _ id c.index c.text _ c.ctype rows id j
      (fun hand => hne c (List.mem_cons_self c cs) hand.2.symm)

theorem fold_store_lookup (prov : Provider) (fails : String → Nat → Bool)
    (id : String) :
    ∀ (l : List ChunkRec) (rows : List EmbRow) (c : ChunkRec),
      c ∈ l → (l.map (fun c => c.index)).Nodup → fails id c.index = false →
      lookupRow (l.foldl (storeChunk prov fails id) rows) id c.index =
        some ⟨id, c.index, c.text, some (create_embedding prov c.text), c.ctype⟩ := by
  intro l
  induction l with
  | nil => intro rows c hc; exact absurd hc (List.not_mem_nil c)
  | cons c0 cs ih =>
    intro rows c hc hnd hnf
    have hnd' := hnd
    rw [List.map_cons, List.nodup_cons] at hnd'
    rcases List.mem_cons.mp hc with rfl | hc2
    · rw [List.foldl_cons]
      rw [fold_store_preserves prov fails id cs _ c.index (by
        intro c' hc' he
        exact hnd'.1 (he ▸ List.mem_map_of_mem (fun c => c.index) hc'))]
      show lookupRow (store_embedding (!fails id c.index) id c.index c.text
        (create_embedding prov c.text) c.ctype rows).2 id c.index = _
      rw [hnf]
      exact lookupRow_store_self id c.index c.text _ c.ctype rows
    · rw [List.foldl_cons]
      exact ih _ c hc2 hnd'.2 hnf

theorem batch_fold_spec (prov : Provider) (pc : String → List ChunkRec)
    (fails : String → Nat → Bool) :
    ∀ (ids : List String) (acc : BatchSummary × List EmbRow),
      (ids.foldl (batchStep prov pc fails) acc).1.total = acc.1.total ∧
      (ids.foldl (batchStep prov pc fails) acc).1.success =
        acc.1.success + ids.countP (fun id => !(pc id).isEmpty) ∧
      (ids.foldl (batchStep prov pc fails) acc).1.failed =
        acc.1.failed ++ ids.filter (fun id => (pc id).isEmpty) := by
  intro ids
  induction ids with
  | nil => intro acc; simp
  | cons id ids ih =>
    intro acc
    rw [List.foldl_cons]
    by_cases hpc : pc id = []
    · have hstep : batchStep prov pc fails acc id =
          (⟨acc.1.total, acc.1.success, acc.1.failed ++ [id]⟩, acc.2) := by
        simp [batchStep, process_paper, hpc]
      rw [hstep]
      obtain ⟨h1, h2, h3⟩ := ih (⟨acc.1.total, acc.1.success, acc.1.failed ++ [id]⟩, acc.2)
      dsimp only at h1 h2 h3
      refine ⟨h1, ?_, ?_⟩
      · rw [h2, List.countP_cons]
        simp [hpc]
      · rw [h3, List.filter_cons]
        simp [hpc]
    · have hstep : batchStep prov pc fails acc id =
          (⟨acc.1.total, acc.1.success + 1, acc.1.failed⟩,
            (pc id).foldl (storeChunk prov fails id) acc.2) := by
        simp [batchStep, process_paper, hpc]
      rw [hstep]
      obtain ⟨h1, h2, h3⟩ := ih (⟨acc.1.total, acc.1.success + 1, acc.1.failed⟩,
        (pc id).foldl (storeChunk prov fails id) acc.2)
      dsimp only at h1 h2 h3
      refine ⟨h1, ?_, ?_⟩
      · rw [h2, List.countP_cons]
        have : (!(pc id).isEmpty) = true := by
          simp [List.isEmpty_iff, hpc]
        rw [this]
        simp
        omega
      · rw [h3, List.filter_cons]
        have : ((pc id).isEmpty : Bool) = false := by
          simp [List.isEmpty_iff, hpc]
        simp [this]

/-- C7 (amended, spec-modelled store): a per-chunk storage failure is
isolated — the remaining chunks of the paper and of the batch are still
embedded and stored, and the failure is never escalated — and the batch
returns a summary of per-paper outcomes; however, a returned store failure is
invisible in that summary: process_paper ignores store_embedding's return
value, reports success whenever the parser yielded any chunks, and the
summary counts only papers whose chunk list was empty as failed. -/
theorem process_batch_isolated (prov : Provider) (pc : String → List ChunkRec)
    (fails : String → Nat → Bool) :
    (∀ (id : String) (rows : List EmbRow),
      (process_paper prov pc fails id rows).1 = !(pc id).isEmpty) ∧
    (∀ (id : String) (rows : List EmbRow) (c : ChunkRec),
      c ∈ pc id → ((pc id).map (fun c => c.index)).Nodup →
      fails id c.index = false →
      lookupRow (process_paper prov pc fails id rows).2 id c.index =
        some ⟨id, c.index, c.text, some (create_embedding prov c.text), c.ctype⟩) ∧
    (∀ (db : DB) (limit : Nat),
      (process_all_papers prov pc fails db limit).1.total =
        (((db.papers.filter (fun p => p.processed && !p.embedding_created)).take
          limit).map (fun p => p.arxiv_id)).length ∧
      (process_all_papers prov pc fails db limit).1.success =
        (((db.papers.filter (fun p => p.processed && !p.embedding_created)).take
          limit).map (fun p => p.arxiv_id)).countP (fun id => !(pc id).isEmpty) ∧
      (process_all_papers prov pc fails db limit).1.failed =
        (((db.papers.filter (fun p => p.processed && !p.embedding_created)).take
          limit).map (fun p => p.arxiv_id)).filter (fun id => (pc id).isEmpty)) := by
  refine ⟨?_, ?_, ?_⟩
  · intro id rows
    by_cases hpc : pc id = []
    · simp [process_paper, hpc]
    · simp [process_paper, hpc, List.isEmpty_iff]
  · intro id rows c hc hnd hnf
    have hpc : pc id ≠ [] := by
      intro he
      exact absurd (he ▸ hc) (List.not_mem_nil c)
    show lookupRow (if pc id = [] then ((false, rows) : Bool × List EmbRow)
      else (true, (pc id).foldl (storeChunk prov fails id) rows)).2 id c.index = _
    rw [if_neg hpc]
    exact fold_store_lookup prov fails id (pc id) rows c hc hnd hnf
  · intro db limit
    obtain ⟨h1, h2, h3⟩ := batch_fold_spec prov pc fails
      (((db.papers.filter (fun p => p.processed && !p.embedding_created)).take
        limit).map (fun p => p.arxiv_id))
      (⟨(((db.papers.filter (fun p => p.processed && !p.embedding_created)).take
        limit).map (fun p => p.arxiv_id)).length, 0, []⟩, db.embeddings)
    dsimp only at h1 h2 h3
    unfold process_all_papers
    dsimp only
    refine ⟨h1, ?_, ?_⟩
    · rw [h2]
      omega
    · rw [h3]
      exact List.nil_append _

/-- Counterexample to C7 as stated: paper A has two chunks and the store of
chunk 0 fails; the remaining chunk is still processed (isolation holds), but
the batch summary reports one success and no failures — the storage failure
is not counted anywhere in the summary. -/
theorem chunk_store_failure_invisible :
    (process_all_papers (Provider.model encOne) exChunks exFails exDB7 50).1 =
      ⟨1, 1, []⟩ ∧
    lookupRow (process_all_papers (Provider.model encOne) exChunks exFails
      exDB7 50).2 "A" 0 = none ∧
    (lookupRow (process_all_papers (Provider.model encOne) exChunks exFails
      exDB7 50).2 "A" 1).isSome = true :=
  ⟨by with_unfolding_all decide, by with_unfolding_all decide,
    by with_unfolding_all decide⟩

/-- Witness for the amended C7: chunk 1 of paper A is stored even though the
store of chunk 0 fails. -/
theorem process_batch_isolated_witness :
    ((⟨1, "t1", "body"⟩ : ChunkRec) ∈ exChunks "A" ∧
      ((exChunks "A").map (fun c => c.index)).Nodup ∧ exFails "A" 1 = false) ∧
    lookupRow (process_paper (Provider.model encOne) exChunks exFails "A" []).2
        "A" 1 =
      some ⟨"A", 1, "t1", some (create_embedding (Provider.model encOne) "t1"),
        "body"⟩ :=
  ⟨⟨by decide, by decide, by decide⟩,
    (process_batch_isolated (Provider.model encOne) exChunks exFails).2.1 "A" []
      ⟨1, "t1", "body"⟩ (by decide) (by decide) (by decide)⟩

/-! ## Malformed stored vectors (claim C8) -/

/-- C8: the source has no guard for stored vectors of mismatched
dimensionality — np.dot raises ValueError, aborting the whole search.  At a
repository holding one well-formed and one malformed vector, the search
crashes (none) instead of excluding the malformed row; the same query over
the repository without the malformed row succeeds, showing results for the
well-formed vectors were available. -/
theorem semantic_search_mismatched_dim_crash :
    semantic_search (Provider.model encOne) exDB8 "q" 5 = none ∧
    (semantic_search (Provider.model encOne) exDB "q" 5).isSome = true :=
  ⟨by with_unfolding_all decide, by with_unfolding_all decide⟩

/-! ## Read-only search and copying ranker (claim C10) -/

theorem dedupeWalkOps_reads (db : DB) (n : Nat) :
    ∀ (hits : List ChunkHit) (seen : List String) (acc : List SearchResult)
      (op : DbOp), op ∈ dedupeWalkOps db n hits seen acc → op.isWrite = false := by
  intro hits
  induction hits with
  | nil => intro seen acc op hop; exact absurd hop (List.not_mem_nil op)
  | cons h hs ih =>
    intro seen acc op hop
    by_cases hseen : h.paper_id ∈ seen
    · simp only [dedupeWalkOps, if_pos hseen] at hop
      exact ih seen acc op hop
    · simp only [dedupeWalkOps, if_neg hseen] at hop
      rcases List.mem_cons.mp hop with rfl | hop2
      · rfl
      · cases hp : get_paper db h.paper_id with
        | none =>
          simp only [hp] at hop2
          exact ih _ _ op hop2
        | some p =>
          simp only [hp] at hop2
          by_cases hfull : n ≤ (mkResult p h :: acc).length
          · rw [if_pos hfull] at hop2
            exact absurd hop2 (List.not_mem_nil op)
          · rw [if_neg hfull] at hop2
            exact ih _ _ op hop2

/-- C10: every database statement semantic_search issues is a read (the bulk
SELECT on embeddings and per-hit SELECTs on papers; no INSERT or UPDATE ever
appears in its trace), so the papers and embeddings tables are untouched; and
every output entry of _rank_papers is a copy of some input document's fields
with the rank_score annotation added, the input documents themselves being
left as they were. -/
theorem search_reads_only_rank_copies (prov : Provider) (db : DB) (query : String)
    (n : Nat) (docs : List DigestPaper) (prefs : List String) :
    (semantic_search_ops prov db query n).all (fun op => !op.isWrite) = true ∧
    ∀ e ∈ rank_papers docs prefs, ∃ p, p ∈ docs ∧
      e = ⟨p.title, p.abstract, p.summary, rank_score_of p prefs⟩ := by
  constructor
  · rw [List.all_eq_true]
    intro op hop
    unfold semantic_search_ops at hop
    rcases List.mem_cons.mp hop with rfl | hop2
    · rfl
    · cases hcs : collectSims (create_embedding prov query) db.embeddings with
      | none =>
        rw [hcs] at hop2
        exact absurd hop2 (List.not_mem_nil op)
      | some hits =>
        rw [hcs] at hop2
        have := dedupeWalkOps_reads db n _ [] [] op hop2
        simp [this]
  · intro e he
    obtain ⟨p, hp, rfl⟩ := rank_papers_mem docs prefs e he
    exact ⟨p, hp, rfl⟩

/-- Witness for C10 at a concrete search trace and a concrete ranking. -/
theorem search_reads_only_rank_copies_witness :
    ((semantic_search_ops (Provider.model encOne) exDB "" 2).all
      (fun op => !op.isWrite) = true) ∧
    ((⟨"RAG systems", "uses Knowledge Graph", [], 1⟩ : ScoredPaper) ∈
        rank_papers [⟨"RAG systems", "uses Knowledge Graph", []⟩] ["rag", "llm"] ∧
      ∃ p, p ∈ [(⟨"RAG systems", "uses Knowledge Graph", []⟩ : DigestPaper)] ∧
        (⟨"RAG systems", "uses Knowledge Graph", [], 1⟩ : ScoredPaper) =
          ⟨p.title, p.abstract, p.summary, rank_score_of p ["rag", "llm"]⟩) :=
  ⟨(search_reads_only_rank_copies (Provider.model encOne) exDB "" 2
      [⟨"RAG systems", "uses Knowledge Graph", []⟩] ["rag", "llm"]).1,
    ⟨by with_unfolding_all decide,
      (search_reads_only_rank_copies (Provider.model encOne) exDB "" 2
        [⟨"RAG systems", "uses Knowledge Graph", []⟩] ["rag", "llm"]).2
        ⟨"RAG systems", "uses Knowledge Graph", [], 1⟩
        (by with_unfolding_all decide)⟩⟩

end NewsLetter
